import Mathlib

set_option autoImplicit false

/-!
Verification development for the contract-intelligence API.

Each section embeds one slice of the source (shallow embedding: pure Lean
functions mirroring the Python code) and proves or refutes the spec claims
about it.  Text is modelled as `List Char`; Django rows are modelled as
structures; external capabilities (vector store, LLM, hash) are abstract
inputs to the functions that consume them.
-/

namespace ContractIntel

/-! ## Chunker (api/services/pdf_processor.py, chunk_text_with_langchain)

The source takes the list of chunk strings produced by the LangChain
text splitter and records offsets by a running cumulative sum:
for each chunk, char_start := char_position, char_end := char_position +
len(chunk_text), char_position += len(chunk_text).
-/

structure ChunkData where
  chunkIndex : Nat
  text : List Char
  charStart : Nat
  charEnd : Nat
deriving DecidableEq, Repr

/-- The offset-bookkeeping loop of chunk_text_with_langchain: walk the
splitter output accumulating chunk_index and char_position exactly as the
Python loop does (the pass-through metadata field is omitted). -/
def chunksDataAux (idx pos : Nat) : List (List Char) → List ChunkData
  | [] => []
  | c :: rest => ⟨idx, c, pos, pos + c.length⟩ :: chunksDataAux (idx + 1) (pos + c.length) rest

/-- chunk_text_with_langchain, parametric in the splitter output. -/
def chunkDataOf (chunks : List (List Char)) : List ChunkData :=
  chunksDataAux 0 0 chunks

/-- Modelled from the spec: the text splitter itself is LangChain's
RecursiveCharacterTextSplitter, an external library not in the repository;
the spec (section 4.1) models it as a sliding fixed-size window with fixed
overlap: start0 = 0, end_i = min(start_i + window, len), start_(i+1) =
end_i - overlap, final chunk may be shorter than the window, empty text
gives no chunks.  The spec's literal stop condition (start = text length)
never holds once overlap is positive, so we stop after emitting the chunk
whose end reaches the text length, which is what every sliding-window
splitter does.  Fuel makes the recursion structural. -/
def slidingAux (w o : Nat) (s : List Char) : Nat → Nat → List (List Char)
  | _, 0 => []
  | start, fuel + 1 =>
    if s.length ≤ start then []
    else
      let e := min (start + w) s.length
      ((s.drop start).take (e - start)) ::
        (if e = s.length then [] else slidingAux w o s (e - o) fuel)

/-- Modelled from the spec: split a text into sliding windows of `w`
characters overlapping by `o` characters. -/
def splitSliding (w o : Nat) (s : List Char) : List (List Char) :=
  slidingAux w o s 0 (s.length + 1)

/-- The composed chunker: spec-modelled splitter followed by the source's
offset bookkeeping. -/
def chunkTextSliding (w o : Nat) (s : List Char) : List ChunkData :=
  chunkDataOf (splitSliding w o s)

/-- Every chunk emitted by the bookkeeping loop satisfies
char_end - char_start = len(text). -/
theorem chunksDataAux_len (chunks : List (List Char)) :
    ∀ idx pos c, c ∈ chunksDataAux idx pos chunks →
      c.charEnd - c.charStart = c.text.length := by
  induction chunks with
  | nil => intro idx pos c h; simp [chunksDataAux] at h
  | cons a rest ih =>
    intro idx pos c h
    simp only [chunksDataAux, List.mem_cons] at h
    rcases h with h | h
    · subst h; simp
    · exact ih _ _ _ h

/-- C5: for every input text, every chunk produced by the chunker has
char_end - char_start equal to the length of its text, and the empty text
yields the empty chunk sequence rather than an error. -/
theorem chunk_len_and_empty (w o : Nat) (s : List Char) :
    (∀ c ∈ chunkTextSliding w o s, c.charEnd - c.charStart = c.text.length) ∧
    chunkTextSliding w o [] = [] := by
  refine ⟨fun c hc => chunksDataAux_len _ 0 0 c hc, ?_⟩
  simp [chunkTextSliding, chunkDataOf, splitSliding, slidingAux, chunksDataAux]

/-- Witness for chunk_len_and_empty at a concrete input. -/
theorem chunk_len_and_empty_witness :
    ((2 : Nat) - 0 = (['a', 'b'] : List Char).length) ∧ chunkTextSliding 4 2 [] = [] :=
  ⟨(chunk_len_and_empty 4 2 ['a', 'b']).1 ⟨0, ['a', 'b'], 0, 2⟩ (by decide),
    (chunk_len_and_empty 4 2 ['a', 'b']).2⟩

/-- C1: with any positive overlap the recorded offsets are not valid slice
bounds into the original text.  On text "abcdef" with a 4-character window
and 2-character overlap the splitter yields "abcd" and "cdef", but the
bookkeeping records the second chunk at (4, 8): char_end 8 exceeds the text
length 6 and the slice text[4:8] = "ef" is not the chunk's text, so
concatenating the recorded spans cannot reconstruct the input. -/
theorem chunk_offsets_overflow :
    chunkTextSliding 4 2 "abcdef".toList =
      [⟨0, "abcd".toList, 0, 4⟩, ⟨1, "cdef".toList, 4, 8⟩] ∧
    "abcdef".toList.length = 6 ∧
    ¬(8 ≤ 6) ∧
    ("abcdef".toList.drop 4).take (8 - 4) ≠ "cdef".toList := by
  refine ⟨by decide, by decide, by decide, by decide⟩

/-! ## Ask view preconditions (api/views/ask.py, AskView.post lines 43-83)

When document_ids is non-empty the view classifies each requested id by
querying Document and DocumentChunk rows, then fails fast: 404 with the
missing ids, else 400 with the not-yet-processed ids, else 404 with the
indexing-gap ids, else it proceeds to vector retrieval.
-/

structure DocRow where
  id : Nat
  status : String
deriving DecidableEq, Repr

/-- Relational state the view consults: Document rows and, for
DocumentChunk.objects.filter(document_id=i).exists(), the set of document
ids that own at least one chunk row. -/
structure AskDB where
  docs : List DocRow
  chunkDocIds : List Nat
deriving Repr

/-- Document.objects.get(id=i), with DoesNotExist mapped to none. -/
def lookupDoc (db : AskDB) (i : Nat) : Option DocRow :=
  db.docs.find? (fun d => d.id == i)

/-- DocumentChunk.objects.filter(document_id=i).exists(). -/
def hasChunks (db : AskDB) (i : Nat) : Bool :=
  db.chunkDocIds.contains i

/-- The classification loop of AskView.post: for each requested id append
it to missing_docs, not_processed or no_vectors exactly as the source does
(found documents that own chunk rows fall through unclassified). -/
def classifyDocs (db : AskDB) : List Nat → List Nat × List Nat × List Nat
  | [] => ([], [], [])
  | i :: rest =>
    let r := classifyDocs db rest
    match lookupDoc db i with
    | none => (i :: r.1, r.2.1, r.2.2)
    | some d =>
      if hasChunks db i then r
      else if d.status = "completed" then (r.1, r.2.1, i :: r.2.2)
      else (r.1, i :: r.2.1, r.2.2)

inductive AskPre where
  | notFound (ids : List Nat)
  | notReady (ids : List Nat)
  | indexingGap (ids : List Nat)
  | proceed
deriving DecidableEq, Repr

/-- The fail-fast precondition check of AskView.post: the three early
Response branches in source order; `proceed` is the fall-through to
rag_engine.retrieve. -/
def askPrecheck (db : AskDB) (ids : List Nat) : AskPre :=
  let r := classifyDocs db ids
  if r.1 ≠ [] then .notFound r.1
  else if r.2.1 ≠ [] then .notReady r.2.1
  else if r.2.2 ≠ [] then .indexingGap r.2.2
  else .proceed

/-- Predicate of loop branch (a): the id has no Document row. -/
def isMissing (db : AskDB) (i : Nat) : Bool :=
  (lookupDoc db i).isNone

/-- Predicate of loop branch (b): found, no chunk rows, status not
completed. -/
def isNotProcessed (db : AskDB) (i : Nat) : Bool :=
  match lookupDoc db i with
  | none => false
  | some d => !hasChunks db i && !(d.status == "completed")

/-- Predicate of loop branch (c): found, no chunk rows, status completed. -/
def isIndexingGap (db : AskDB) (i : Nat) : Bool :=
  match lookupDoc db i with
  | none => false
  | some d => !hasChunks db i && (d.status == "completed")

theorem classifyDocs_eq_filter (db : AskDB) (ids : List Nat) :
    classifyDocs db ids =
      (ids.filter (isMissing db), ids.filter (isNotProcessed db),
        ids.filter (isIndexingGap db)) := by
  induction ids with
  | nil => rfl
  | cons i rest ih =>
    simp only [classifyDocs, ih]
    cases h : lookupDoc db i with
    | none =>
      simp [List.filter_cons, isMissing, isNotProcessed, isIndexingGap, h]
    | some d =>
      by_cases hc : hasChunks db i
      · simp [List.filter_cons, isMissing, isNotProcessed, isIndexingGap, h, hc]
      · by_cases hs : d.status = "completed"
        · simp [List.filter_cons, isMissing, isNotProcessed, isIndexingGap, h, hc, hs]
        · simp [List.filter_cons, isMissing, isNotProcessed, isIndexingGap, h, hc, hs]

/-- C2: the precheck fails fast in priority order with a distinct signal
listing exactly the offending ids — missing documents first, then found
documents with no chunk rows and status not completed, then completed
documents with zero chunk rows — and retrieval proceeds exactly when every
requested id resolves to a Document that owns chunk rows. -/
theorem ask_precheck_priority (db : AskDB) (ids : List Nat) :
    ((∃ i ∈ ids, isMissing db i) →
        askPrecheck db ids = .notFound (ids.filter (isMissing db))) ∧
    ((∀ i ∈ ids, ¬isMissing db i) → (∃ i ∈ ids, isNotProcessed db i) →
        askPrecheck db ids = .notReady (ids.filter (isNotProcessed db))) ∧
    ((∀ i ∈ ids, ¬isMissing db i ∧ ¬isNotProcessed db i) →
        (∃ i ∈ ids, isIndexingGap db i) →
        askPrecheck db ids = .indexingGap (ids.filter (isIndexingGap db))) ∧
    (askPrecheck db ids = .proceed ↔
        ∀ i ∈ ids, (lookupDoc db i).isSome ∧ hasChunks db i) := by
  have hcl := classifyDocs_eq_filter db ids
  constructor
  · intro ⟨i, hi, hm⟩
    have h1 : ids.filter (isMissing db) ≠ [] := by
      intro h
      exact absurd hm (by simpa using (List.filter_eq_nil_iff.mp h i hi))
    simp [askPrecheck, hcl, h1]
  constructor
  · intro hnone ⟨i, hi, hnp⟩
    have h1 : ids.filter (isMissing db) = [] :=
      List.filter_eq_nil_iff.mpr (fun a ha => by simpa using hnone a ha)
    have h2 : ids.filter (isNotProcessed db) ≠ [] := by
      intro h
      exact absurd hnp (by simpa using (List.filter_eq_nil_iff.mp h i hi))
    simp [askPrecheck, hcl, h1, h2]
  constructor
  · intro hnone ⟨i, hi, hgap⟩
    have h1 : ids.filter (isMissing db) = [] :=
      List.filter_eq_nil_iff.mpr (fun a ha => by simpa using (hnone a ha).1)
    have h2 : ids.filter (isNotProcessed db) = [] :=
      List.filter_eq_nil_iff.mpr (fun a ha => by simpa using (hnone a ha).2)
    have h3 : ids.filter (isIndexingGap db) ≠ [] := by
      intro h
      exact absurd hgap (by simpa using (List.filter_eq_nil_iff.mp h i hi))
    simp [askPrecheck, hcl, h1, h2, h3]
  · constructor
    · intro h i hi
      simp only [askPrecheck, hcl] at h
      by_cases h1 : ids.filter (isMissing db) = [] <;>
        by_cases h2 : ids.filter (isNotProcessed db) = [] <;>
          by_cases h3 : ids.filter (isIndexingGap db) = [] <;>
            simp [h1, h2, h3] at h
      have hm : ¬isMissing db i := by simpa using List.filter_eq_nil_iff.mp h1 i hi
      have hnp : ¬isNotProcessed db i := by
        simpa using List.filter_eq_nil_iff.mp h2 i hi
      have hgap : ¬isIndexingGap db i := by
        simpa using List.filter_eq_nil_iff.mp h3 i hi
      cases hd : lookupDoc db i with
      | none => exact absurd (by simp [isMissing, hd]) hm
      | some d =>
        refine ⟨by simp [hd], ?_⟩
        by_cases hc : hasChunks db i
        · exact hc
        · by_cases hs : d.status = "completed"
          · exact absurd (by simp [isIndexingGap, hd, hc, hs]) hgap
          · exact absurd (by simp [isNotProcessed, hd, hc, hs]) hnp
    · intro h
      have h1 : ids.filter (isMissing db) = [] := by
        refine List.filter_eq_nil_iff.mpr (fun a ha => ?_)
        have := (h a ha).1
        simp only [isMissing]
        simpa [Option.isNone_iff_eq_none] using Option.isSome_iff_ne_none.mp this
      have h2 : ids.filter (isNotProcessed db) = [] := by
        refine List.filter_eq_nil_iff.mpr (fun a ha => ?_)
        obtain ⟨hsome, hch⟩ := h a ha
        cases hd : lookupDoc db a with
        | none => simp [isNotProcessed, hd]
        | some d => simp [isNotProcessed, hd, hch]
      have h3 : ids.filter (isIndexingGap db) = [] := by
        refine List.filter_eq_nil_iff.mpr (fun a ha => ?_)
        obtain ⟨hsome, hch⟩ := h a ha
        cases hd : lookupDoc db a with
        | none => simp [isIndexingGap, hd]
        | some d => simp [isIndexingGap, hd, hch]
      simp [askPrecheck, hcl, h1, h2, h3]

/-- Witness for ask_precheck_priority: asking about never-created id 999
yields the NotFound signal listing [999]; a pending document with no
chunks yields NotReady; a completed document with no chunks yields the
indexing-gap signal; a completed document with chunk rows proceeds. -/
theorem ask_precheck_priority_witness :
    askPrecheck ⟨[], []⟩ [999] = .notFound [999] ∧
    askPrecheck ⟨[⟨1, "pending"⟩], []⟩ [1] = .notReady [1] ∧
    askPrecheck ⟨[⟨2, "completed"⟩], []⟩ [2] = .indexingGap [2] ∧
    askPrecheck ⟨[⟨3, "completed"⟩], [3]⟩ [3] = .proceed := by
  refine ⟨?_, ?_, ?_, ?_⟩
  · exact (ask_precheck_priority ⟨[], []⟩ [999]).1 ⟨999, by decide, by decide⟩
  · exact (ask_precheck_priority ⟨[⟨1, "pending"⟩], []⟩ [1]).2.1
      (by intro i hi; fin_cases hi <;> decide) ⟨1, by decide, by decide⟩
  · exact (ask_precheck_priority ⟨[⟨2, "completed"⟩], []⟩ [2]).2.2.1
      (by intro i hi; fin_cases hi <;> decide) ⟨2, by decide, by decide⟩
  · exact (ask_precheck_priority ⟨[⟨3, "completed"⟩], [3]⟩ [3]).2.2.2.mpr
      (by intro i hi; fin_cases hi <;> exact ⟨by decide, by decide⟩)

/-! ## Citation resolver (api/services/rag_engine.py, _extract_citations)

For each retrieved chunk hit the resolver copies document_id, chunk_index,
char_start and char_end, then tries
DocumentChunk.objects.get(document_id, chunk_index); only when that row
exists and its page foreign key is set does it add page_number.  The bare
except swallows every lookup failure.
-/

structure Hit where
  documentId : Nat
  chunkIndex : Nat
  charStart : Nat
  charEnd : Nat
deriving DecidableEq, Repr

/-- DocumentChunk row as the resolver sees it: its natural key and the
page_number of the associated DocumentPage (none when the page foreign key
is null). -/
structure DBChunkRow where
  documentId : Nat
  chunkIndex : Nat
  page : Option Nat
deriving DecidableEq, Repr

/-- DocumentChunk.objects.get(document_id=d, chunk_index=c); the schema's
unique_together on (document, chunk_index) makes the first match the only
match. -/
def lookupChunkRow (db : List DBChunkRow) (d c : Nat) : Option DBChunkRow :=
  db.find? (fun r => r.documentId == d && r.chunkIndex == c)

structure Citation where
  documentId : Nat
  chunkIndex : Nat
  charStart : Nat
  charEnd : Nat
  pageNumber : Option Nat
deriving DecidableEq, Repr

/-- the _extract_citations loop: one citation per hit; page_number is set
only from a found row with a page association, otherwise absent (none). -/
def extractCitations (db : List DBChunkRow) (hits : List Hit) : List Citation :=
  hits.map (fun h =>
    { documentId := h.documentId, chunkIndex := h.chunkIndex,
      charStart := h.charStart, charEnd := h.charEnd,
      pageNumber :=
        match lookupChunkRow db h.documentId h.chunkIndex with
        | some r => r.page
        | none => none })

/-- C3 counterexample: for a hit whose relational Chunk row is missing, the
resolver returns the citation with no page_number at all (none); it does
not substitute char_start divided by an average-characters-per-page
constant plus one, so the claimed estimation fallback does not exist in the
code. -/
theorem citations_omit_missing_page :
    extractCitations [] [⟨7, 3, 5000, 5400⟩] = [⟨7, 3, 5000, 5400, none⟩] ∧
    (extractCitations [⟨7, 3, none⟩] [⟨7, 3, 5000, 5400⟩]) =
      [⟨7, 3, 5000, 5400, none⟩] := by
  exact ⟨rfl, rfl⟩

/-- C3 amended: the resolver never drops or raises on a hit — it returns
exactly one citation per hit, carrying the hit's identifiers and offsets —
and its page_number is the page association of the looked-up Chunk row when
that row exists, and absent (none, not an estimate) when the row is missing
or has no Page association. -/
theorem extract_citations_page_lookup (db : List DBChunkRow) (hits : List Hit)
    (i : Nat) (hi : i < hits.length) :
    (extractCitations db hits).length = hits.length ∧
    ((extractCitations db hits).get ⟨i, by simpa [extractCitations] using hi⟩ =
      { documentId := (hits.get ⟨i, hi⟩).documentId,
        chunkIndex := (hits.get ⟨i, hi⟩).chunkIndex,
        charStart := (hits.get ⟨i, hi⟩).charStart,
        charEnd := (hits.get ⟨i, hi⟩).charEnd,
        pageNumber :=
          (lookupChunkRow db (hits.get ⟨i, hi⟩).documentId
              (hits.get ⟨i, hi⟩).chunkIndex).bind DBChunkRow.page }) := by
  refine ⟨by simp [extractCitations], ?_⟩
  simp only [extractCitations, List.get_eq_getElem, List.getElem_map]
  cases h : lookupChunkRow db hits[i].documentId hits[i].chunkIndex with
  | none => simp [h]
  | some r => simp [h, Option.bind]

/-- Witness for extract_citations_page_lookup: a hit with a row carrying
page 2 resolves to page_number some 2. -/
theorem extract_citations_page_lookup_witness :
    (extractCitations [⟨7, 3, some 2⟩] [⟨7, 3, 5000, 5400⟩]).length = 1 ∧
    (extractCitations [⟨7, 3, some 2⟩] [⟨7, 3, 5000, 5400⟩]).get
        ⟨0, by decide⟩ = ⟨7, 3, 5000, 5400, some 2⟩ := by
  have h := extract_citations_page_lookup [⟨7, 3, some 2⟩] [⟨7, 3, 5000, 5400⟩]
    0 (by decide)
  exact ⟨h.1, by rw [h.2]; rfl⟩

/-! ## Retriever (api/services/rag_engine.py, retrieve lines 79-134)

The source calls the Chroma vector store's similarity_search and converts
each returned langchain document to a chunk dict in the order the store
returned them; the score field reads metadata.get('score', 0.0) — no
re-sorting of any kind happens.
-/

/-- A document as returned by vector_store.similarity_search: page content
plus the metadata fields the conversion reads.  Chroma does not put a
score in the metadata, so `score` is typically none. -/
structure VDoc where
  text : List Char
  documentId : Nat
  chunkIndex : Nat
  charStart : Nat
  charEnd : Nat
  score : Option Int
deriving DecidableEq, Repr

structure RChunk where
  text : List Char
  documentId : Nat
  chunkIndex : Nat
  charStart : Nat
  charEnd : Nat
  score : Int
deriving DecidableEq, Repr

/-- Conversion of one store hit to the chunk dict: metadata.get('score',
0.0) becomes getD 0. -/
def docToChunk (d : VDoc) : RChunk :=
  ⟨d.text, d.documentId, d.chunkIndex, d.charStart, d.charEnd, d.score.getD 0⟩

/-- The conversion loop of retrieve: append one chunk dict per returned
document, in the store's order. -/
def retrieveFromDocs : List VDoc → List RChunk
  | [] => []
  | d :: ds => docToChunk d :: retrieveFromDocs ds

/-- Stated from the claim's words: the ordering the claim asserts on the
returned sequence — descending score, ties by ascending chunk_index, then
ascending document_id. -/
def claimOrder (a b : RChunk) : Prop :=
  b.score < a.score ∨
    (a.score = b.score ∧
      (a.chunkIndex < b.chunkIndex ∨
        (a.chunkIndex = b.chunkIndex ∧ a.documentId ≤ b.documentId)))

instance : DecidableRel claimOrder := fun a b => by
  unfold claimOrder; infer_instance

/-- Stated from the claim's words: the whole sequence is sorted by
claimOrder. -/
def claimRanked (l : List RChunk) : Prop :=
  l.Pairwise claimOrder

instance (l : List RChunk) : Decidable (claimRanked l) := by
  unfold claimRanked; infer_instance

/-- C4 counterexample: when the store returns two equal-score hits with
chunk_index 5 before chunk_index 2, retrieve keeps that order, so the
output violates the claimed ascending-chunk_index tie-break. -/
theorem retrieve_not_reranked :
    retrieveFromDocs
        [⟨"a".toList, 1, 5, 0, 1, none⟩, ⟨"b".toList, 1, 2, 1, 2, none⟩] =
      [⟨"a".toList, 1, 5, 0, 1, 0⟩, ⟨"b".toList, 1, 2, 1, 2, 0⟩] ∧
    ¬claimRanked
        (retrieveFromDocs
          [⟨"a".toList, 1, 5, 0, 1, none⟩, ⟨"b".toList, 1, 2, 1, 2, none⟩]) := by
  exact ⟨rfl, by decide⟩

/-- C4 amended: retrieve applies no ordering of its own — it maps the
store's results to chunk dicts one-for-one in the store's order (score
defaulting to 0 when the metadata has none), so its output satisfies the
claimed descending-score/chunk_index/document_id ordering exactly when the
store's returned sequence already does. -/
theorem retrieve_preserves_store_order (docs : List VDoc) :
    retrieveFromDocs docs = docs.map docToChunk ∧
    (claimRanked (retrieveFromDocs docs) ↔
      docs.Pairwise (fun a b => claimOrder (docToChunk a) (docToChunk b))) := by
  have hmap : retrieveFromDocs docs = docs.map docToChunk := by
    induction docs with
    | nil => rfl
    | cons d ds ih => simp [retrieveFromDocs, ih]
  refine ⟨hmap, ?_⟩
  rw [hmap, claimRanked, List.pairwise_map]

/-! ## Audit engine (api/services/audit_engine.py)

Findings are plain dicts; deduplication keys on (risk_type, first 50
characters of evidence) keeping first occurrences, and the final ordering
is Python's sorted with key severity_rank and reverse=True — a stable
descending sort.
-/

structure Finding where
  riskType : String
  severity : String
  title : String
  description : String
  evidence : String
  recommendation : String
  detectionMethod : String
  ruleMatched : Option String
deriving DecidableEq, Repr

/-- The dedup key of _deduplicate_findings:
(finding['risk_type'], finding['evidence'][:50]). -/
def findingKey (f : Finding) : String × String :=
  (f.riskType, f.evidence.take 50)

/-- the _deduplicate_findings loop, with the `seen` dict as the list of
keys inserted so far. -/
def dedupAux (seen : List (String × String)) : List Finding → List Finding
  | [] => []
  | f :: rest =>
    if findingKey f ∈ seen then dedupAux seen rest
    else f :: dedupAux (findingKey f :: seen) rest

def deduplicateFindings (l : List Finding) : List Finding :=
  dedupAux [] l

/-- Stated from the claim's words: keep each finding whose key differs
from every earlier finding's key — keep the first occurrence, drop every
later finding sharing its risk_type and first-50-characters of evidence. -/
def claimDedup : List Finding → List Finding
  | [] => []
  | f :: rest =>
    f :: claimDedup (rest.filter (fun g => findingKey g != findingKey f))
termination_by l => l.length
decreasing_by
  simp only [List.length_cons]
  exact Nat.lt_succ_of_le (List.length_filter_le _ _)

theorem dedupAux_eq_claimDedup (l : List Finding) :
    ∀ seen, dedupAux seen l =
      claimDedup (l.filter (fun f => !seen.contains (findingKey f))) := by
  induction l with
  | nil => intro seen; simp [dedupAux, claimDedup]
  | cons f rest ih =>
    intro seen
    by_cases h : findingKey f ∈ seen
    · have hb : (!seen.contains (findingKey f)) = false := by simp [h]
      simp only [dedupAux, if_pos h, List.filter_cons, hb]
      simp only [Bool.false_eq_true, if_false]
      exact ih seen
    · have hb : (!seen.contains (findingKey f)) = true := by simp [h]
      simp only [dedupAux, if_neg h, List.filter_cons, hb, if_true]
      rw [ih (findingKey f :: seen)]
      conv_rhs => rw [claimDedup]
      rw [List.filter_filter]
      congr 1
      refine congrArg claimDedup (List.filter_congr ?_)
      intro g _
      simp only [List.contains_cons, Bool.not_or]
      rfl

/-- claimDedup only deletes elements: its output is a sublist of its
input, so relative order is preserved. -/
theorem claimDedup_sublist : ∀ (n : Nat) (l : List Finding), l.length ≤ n →
    List.Sublist (claimDedup l) l
  | _, [], _ => by simp [claimDedup]
  | 0, f :: rest, h => by simp at h
  | n + 1, f :: rest, h => by
    rw [claimDedup]
    refine List.Sublist.cons₂ f ?_
    refine List.Sublist.trans
      (claimDedup_sublist n (rest.filter (fun g => findingKey g != findingKey f)) ?_)
      (List.filter_sublist rest)
    exact Nat.le_trans (List.length_filter_le _ _) (Nat.le_of_succ_le_succ h)

/-- C7: _deduplicate_findings keeps a finding exactly when no earlier
finding shares its risk_type and first 50 evidence characters — it equals
the first-occurrence-keeping filter stated by the claim — and the kept
findings stay in their original relative order (the output is a sublist of
the input). -/
theorem dedup_matches_claim (l : List Finding) :
    deduplicateFindings l = claimDedup l ∧
    List.Sublist (deduplicateFindings l) l := by
  have h : deduplicateFindings l = claimDedup l := by
    rw [deduplicateFindings, dedupAux_eq_claimDedup l []]
    congr 1
    apply List.filter_eq_self.mpr
    intro a _
    rfl
  exact ⟨h, h ▸ claimDedup_sublist l.length l (Nat.le_refl _)⟩

/-! ### Severity ranking and the final stable sort (audit_contract line 43,
_severity_rank lines 205-213) -/

/-- the ranks dict with .get default 0. -/
def severityRank (s : String) : Nat :=
  if s = "critical" then 4
  else if s = "high" then 3
  else if s = "medium" then 2
  else if s = "low" then 1
  else 0

/-- the sort key of audit_contract line 43:
lambda x: self._severity_rank(x['severity']). -/
def rankOf (f : Finding) : Nat :=
  severityRank f.severity

/-- One step of the stable descending sort: place f before the first
element of rank not above f's, so an equal-rank element that came earlier
in the original list stays in front.  Python's sorted(key=...,
reverse=True) is specified to be exactly this stable descending order. -/
def insertByRank (f : Finding) : List Finding → List Finding
  | [] => [f]
  | g :: rest =>
    if rankOf g ≤ rankOf f then f :: g :: rest
    else g :: insertByRank f rest

/-- sorted(findings, key=severity_rank, reverse=True), modelled as a
stable insertion sort (the stable descending sort is unique as a
function, so this is extensionally Python's sorted). -/
def sortFindings (l : List Finding) : List Finding :=
  l.foldr insertByRank []

theorem filter_insertByRank (f : Finding) (r : Nat) (l : List Finding) :
    (insertByRank f l).filter (fun g => rankOf g == r) =
      if rankOf f = r then
        f :: l.filter (fun g => rankOf g == r)
      else l.filter (fun g => rankOf g == r) := by
  induction l with
  | nil =>
    by_cases h : rankOf f = r <;> simp [insertByRank, List.filter_cons, h]
  | cons g rest ih =>
    rw [insertByRank]
    by_cases hle : rankOf g ≤ rankOf f
    · rw [if_pos hle]
      by_cases h : rankOf f = r <;> simp [List.filter_cons, h]
    · rw [if_neg hle]
      by_cases hg : rankOf g = r
      · have hf : rankOf f ≠ r := fun h => hle (h ▸ hg.le)
        simp [List.filter_cons, hg, ih, hf]
      · simp only [List.filter_cons, beq_iff_eq, hg, if_false, ih]

theorem insertByRank_perm (f : Finding) : (l : List Finding) →
    List.Perm (insertByRank f l) (f :: l)
  | [] => List.Perm.refl _
  | g :: rest => by
    rw [insertByRank]
    by_cases hle : rankOf g ≤ rankOf f
    · rw [if_pos hle]
    · rw [if_neg hle]
      exact List.Perm.trans (List.Perm.cons g (insertByRank_perm f rest))
        (List.Perm.swap f g rest)

theorem sorted_insertByRank (f : Finding) (l : List Finding)
    (h : l.Pairwise (fun a b => rankOf b ≤ rankOf a)) :
    (insertByRank f l).Pairwise (fun a b => rankOf b ≤ rankOf a) := by
  induction l with
  | nil => simp [insertByRank]
  | cons g rest ih =>
    rw [insertByRank]
    rcases List.pairwise_cons.mp h with ⟨hg, hrest⟩
    by_cases hle : rankOf g ≤ rankOf f
    · rw [if_pos hle]
      refine List.pairwise_cons.mpr ⟨?_, h⟩
      intro b hb
      rcases List.mem_cons.mp hb with hb | hb
      · exact hb ▸ hle
      · exact Nat.le_trans (hg b hb) hle
    · rw [if_neg hle]
      refine List.pairwise_cons.mpr ⟨?_, ih hrest⟩
      intro b hb
      have hb2 : b ∈ f :: rest := (insertByRank_perm f rest).mem_iff.mp hb
      rcases List.mem_cons.mp hb2 with hb2 | hb2
      · exact hb2 ▸ Nat.le_of_not_le hle
      · exact hg b hb2

/-- C8: the final audit ordering is the stable descending severity sort:
the output is pairwise descending in severity rank (critical=4, high=3,
medium=2, low=1, unknown=0), every equal-rank fiber keeps its original
insertion order, the output is a permutation of the input, and the spec's
example [low, critical, medium, high] sorts to [critical, high, medium,
low]. -/
theorem audit_sorted_stable (l : List Finding) :
    (sortFindings l).Pairwise (fun a b => rankOf b ≤ rankOf a) ∧
    (∀ r : Nat, (sortFindings l).filter (fun g => rankOf g == r) =
      l.filter (fun g => rankOf g == r)) ∧
    List.Perm (sortFindings l) l ∧
    (sortFindings
        [⟨"a", "low", "", "", "", "", "rules", none⟩,
         ⟨"b", "critical", "", "", "", "", "rules", none⟩,
         ⟨"c", "medium", "", "", "", "", "rules", none⟩,
         ⟨"d", "high", "", "", "", "", "rules", none⟩]).map Finding.severity =
      ["critical", "high", "medium", "low"] := by
  refine ⟨?_, ?_, ?_, by decide⟩
  · induction l with
    | nil => simp [sortFindings]
    | cons f rest ih => exact sorted_insertByRank f _ ih
  · intro r
    induction l with
    | nil => rfl
    | cons f rest ih =>
      show (insertByRank f (sortFindings rest)).filter _ = _
      rw [filter_insertByRank, List.filter_cons]
      by_cases h : rankOf f = r
      · simp [h, ih]
      · simp [h, ih]
  · induction l with
    | nil => exact List.Perm.refl _
    | cons f rest ih =>
      exact List.Perm.trans (insertByRank_perm f (sortFindings rest))
        (List.Perm.cons f ih)

/-! ### Auto-renewal rule (audit_engine.py, _rule_based_audit lines 51-64)

The rule fires when extracted_data is truthy, extracted_data
['auto_renewal']['enabled'] is truthy, and notice_days (defaulting to 0)
is truthy — that is, nonzero — and < 30.
-/

/-- the extracted_fields.auto_renewal sub-dict: enabled truthiness, the
optional notice_days number and the optional terms text. -/
structure AutoRenewal where
  enabled : Bool
  noticeDays : Option Int
  terms : Option String
deriving DecidableEq, Repr

/-- Rule 1 of _rule_based_audit.  The outer Option is extracted_data
itself (None or falsy dict), the inner Option the auto_renewal key
(.get('auto_renewal', \x7b\x7d) yielding an empty dict whose .get('enabled')
is falsy). -/
def autoRenewalFindings (extracted : Option (Option AutoRenewal)) : List Finding :=
  match extracted with
  | some (some ar) =>
    if ar.enabled then
      if ar.noticeDays.getD 0 ≠ 0 ∧ ar.noticeDays.getD 0 < 30 then
        [{ riskType := "auto_renewal", severity := "high",
           title := "Inadequate Auto-Renewal Notice Period",
           description := "Contract auto-renews with only " ++
             toString (ar.noticeDays.getD 0) ++
             " days notice, which may be insufficient.",
           evidence := ar.terms.getD "Auto-renewal clause detected",
           recommendation :=
             "Negotiate for at least 30-60 days notice period before auto-renewal.",
           detectionMethod := "rules",
           ruleMatched := some "auto_renewal_notice_period" }]
      else []
    else []
  | _ => []

/-- C9 counterexample: a negative notice_days is truthy in Python, so the
detector fires on auto_renewal enabled with notice_days = -5, emitting a
high-severity auto_renewal finding where the claim predicts none. -/
theorem auto_renewal_fires_on_negative :
    (autoRenewalFindings (some (some ⟨true, some (-5), some "renews"⟩))).map
        (fun f => (f.riskType, f.severity)) = [("auto_renewal", "high")] := by
  decide

/-- C9 amended: the detector emits a finding exactly when auto_renewal is
enabled and notice_days is a nonzero number strictly below 30 (so zero and
absent notice_days suppress it, but negative values fire); every emitted
finding is the high-severity auto_renewal finding. -/
theorem auto_renewal_rule_iff (extracted : Option (Option AutoRenewal)) :
    (autoRenewalFindings extracted ≠ [] ↔
      ∃ ar : AutoRenewal, extracted = some (some ar) ∧ ar.enabled = true ∧
        ar.noticeDays.getD 0 ≠ 0 ∧ ar.noticeDays.getD 0 < 30) ∧
    (∀ f ∈ autoRenewalFindings extracted,
      f.riskType = "auto_renewal" ∧ f.severity = "high") := by
  constructor
  · constructor
    · intro h
      match extracted, h with
      | none, h => exact absurd rfl h
      | some none, h => exact absurd rfl h
      | some (some ar), h =>
        refine ⟨ar, rfl, ?_⟩
        by_cases he : ar.enabled
        · by_cases hn : ar.noticeDays.getD 0 ≠ 0 ∧ ar.noticeDays.getD 0 < 30
          · exact ⟨he, hn⟩
          · exact absurd (by simp only [autoRenewalFindings, if_pos he, if_neg hn]) h
        · exact absurd (by simp [autoRenewalFindings, he]) h
    · rintro ⟨ar, rfl, he, hn⟩
      simp only [autoRenewalFindings, if_pos he, if_pos hn]
      exact List.cons_ne_nil _ _
  · intro f hf
    match extracted, hf with
    | none, hf => exact absurd hf (List.not_mem_nil f)
    | some none, hf => exact absurd hf (List.not_mem_nil f)
    | some (some ar), hf =>
      simp only [autoRenewalFindings] at hf
      by_cases he : ar.enabled
      · rw [if_pos he] at hf
        by_cases hn : ar.noticeDays.getD 0 ≠ 0 ∧ ar.noticeDays.getD 0 < 30
        · rw [if_pos hn] at hf
          cases List.mem_singleton.mp hf
          exact ⟨rfl, rfl⟩
        · rw [if_neg hn] at hf
          exact absurd hf (List.not_mem_nil f)
      · rw [if_neg (by simpa using he)] at hf
        exact absurd hf (List.not_mem_nil f)

/-- Witness for auto_renewal_rule_iff: notice_days 15 with auto-renewal
enabled emits, and what it emits is the high auto_renewal finding. -/
theorem auto_renewal_rule_iff_witness :
    autoRenewalFindings (some (some ⟨true, some 15, none⟩)) ≠ [] := by
  exact (auto_renewal_rule_iff (some (some ⟨true, some 15, none⟩))).1.mpr
    ⟨⟨true, some 15, none⟩, rfl, rfl, by decide, by decide⟩

/-! ## Ingest view (api/views/ingest.py, IngestView.post lines 52-76, and
api/models/document.py Document.file_hash unique=True)

document.save() raises a unique-constraint error exactly when a Document
row with the same SHA256 file hash already exists; the handler fetches
that row, resets it to pending with a cleared error message when its
status is failed, and returns its id — no error reaches the caller.
calculate_file_hash is deterministic SHA256 of the uploaded bytes; it is
modelled as an arbitrary function from content to hash so that
byte-identical uploads hash identically by construction.
-/

structure IngDoc where
  id : Nat
  filename : String
  fileHash : Nat
  status : String
  errorMessage : Option String
deriving DecidableEq, Repr

/-- Document table plus the auto-increment id counter. -/
structure IngDB where
  rows : List IngDoc
  nextId : Nat
deriving DecidableEq, Repr

/-- Document.objects.filter(file_hash=h).first(). -/
def findByHash (db : IngDB) (h : Nat) : Option IngDoc :=
  db.rows.find? (fun d => d.fileHash == h)

/-- the retry-reset step of the duplicate handler: failed documents go
back to pending with error_message cleared; other statuses are left
alone. -/
def resetIfFailed (d : IngDoc) : IngDoc :=
  if d.status = "failed" then
    { d with status := "pending", errorMessage := none }
  else d

/-- existing_doc.save(): write the updated row back by primary key. -/
def updateRow (rows : List IngDoc) (d : IngDoc) : List IngDoc :=
  rows.map (fun r => if r.id == d.id then d else r)

/-- One iteration of IngestView.post for one uploaded file: hash the
bytes, try to insert a fresh pending row, and on the unique-constraint
error fetch the existing row by hash, reset it if failed, and answer with
its id.  The result id is always produced: the uniqueness violation never
escapes to the caller. -/
def ingestOne (hashFn : List Nat → Nat) (content : List Nat)
    (filename : String) (db : IngDB) : IngDB × Nat :=
  let h := hashFn content
  match findByHash db h with
  | none =>
    (⟨db.rows ++ [⟨db.nextId, filename, h, "pending", none⟩], db.nextId + 1⟩,
      db.nextId)
  | some d0 =>
    let d1 := resetIfFailed d0
    (⟨updateRow db.rows d1, db.nextId⟩, d1.id)

theorem findByHash_updateRow (rows : List IngDoc) (h : Nat) (d0 d1 : IngDoc)
    (hfind : rows.find? (fun d => d.fileHash == h) = some d0)
    (hid : d1.id = d0.id) (hh : d1.fileHash = d0.fileHash) :
    (updateRow rows d1).find? (fun d => d.fileHash == h) = some d1 := by
  induction rows with
  | nil => simp [List.find?] at hfind
  | cons r rest ih =>
    have hcons : updateRow (r :: rest) d1 =
        (if (r.id == d1.id) = true then d1 else r) :: updateRow rest d1 := rfl
    by_cases hr : (r.fileHash == h) = true
    · rw [List.find?_cons_of_pos (p := fun d => d.fileHash == h) rest hr] at hfind
      cases hfind
      have hrid : (d0.id == d1.id) = true := by simp [hid]
      have hd1h : (d1.fileHash == h) = true := by rw [hh]; exact hr
      rw [hcons, if_pos hrid]
      exact List.find?_cons_of_pos (p := fun d : IngDoc => d.fileHash == h) _ hd1h
    · rw [List.find?_cons_of_neg (p := fun d => d.fileHash == h) rest
        (by simpa using hr)] at hfind
      by_cases hrid : (r.id == d1.id) = true
      · have hd0h : (d0.fileHash == h) = true := by
          simpa using List.find?_some hfind
        have hd1h : (d1.fileHash == h) = true := by rw [hh]; exact hd0h
        rw [hcons, if_pos hrid]
        exact List.find?_cons_of_pos (p := fun d : IngDoc => d.fileHash == h) _ hd1h
      · rw [hcons, if_neg hrid, List.find?_cons_of_neg
          (p := fun d => d.fileHash == h) (updateRow rest d1) (by simpa using hr)]
        exact ih hfind

/-- C6: uploading byte-identical content twice — under any two filenames —
returns the same document id both times; when a row with that content hash
already exists, its id is answered and, if its status was failed, it is
reset to pending with the error message cleared, while any other status
leaves the row exactly as it was. -/
theorem ingest_duplicate_same_id (hashFn : List Nat → Nat) (content : List Nat)
    (f1 f2 : String) (db : IngDB) :
    ((ingestOne hashFn content f2 (ingestOne hashFn content f1 db).1).2 =
      (ingestOne hashFn content f1 db).2) ∧
    (∀ d0, findByHash db (hashFn content) = some d0 →
      (ingestOne hashFn content f1 db).2 = d0.id ∧
      (d0.status = "failed" →
        findByHash (ingestOne hashFn content f1 db).1 (hashFn content) =
          some { d0 with status := "pending", errorMessage := none }) ∧
      (d0.status ≠ "failed" →
        findByHash (ingestOne hashFn content f1 db).1 (hashFn content) =
          some d0)) := by
  constructor
  · cases hf : findByHash db (hashFn content) with
    | none =>
      have hstep : (ingestOne hashFn content f1 db) =
          (⟨db.rows ++ [⟨db.nextId, f1, hashFn content, "pending", none⟩],
            db.nextId + 1⟩, db.nextId) := by
        simp [ingestOne, hf]
      rw [hstep]
      have hfind2 : findByHash
          ⟨db.rows ++ [⟨db.nextId, f1, hashFn content, "pending", none⟩],
            db.nextId + 1⟩ (hashFn content) =
          some ⟨db.nextId, f1, hashFn content, "pending", none⟩ := by
        simp only [findByHash] at hf ⊢
        rw [List.find?_append, hf]
        simp
      simp [ingestOne, hfind2, resetIfFailed]
    | some d0 =>
      have hstep : ingestOne hashFn content f1 db =
          (⟨updateRow db.rows (resetIfFailed d0), db.nextId⟩,
            (resetIfFailed d0).id) := by
        simp [ingestOne, hf]
      rw [hstep]
      have hid : (resetIfFailed d0).id = d0.id := by
        simp only [resetIfFailed]; split <;> rfl
      have hh : (resetIfFailed d0).fileHash = d0.fileHash := by
        simp only [resetIfFailed]; split <;> rfl
      have hfind2 : findByHash ⟨updateRow db.rows (resetIfFailed d0), db.nextId⟩
          (hashFn content) = some (resetIfFailed d0) :=
        findByHash_updateRow db.rows (hashFn content) d0 (resetIfFailed d0)
          hf hid hh
      have hid2 : resetIfFailed (resetIfFailed d0) = resetIfFailed d0 := by
        simp only [resetIfFailed]
        split
        · simp
        · rfl
      simp [ingestOne, hfind2, hid2]
  · intro d0 hf
    have hid : (resetIfFailed d0).id = d0.id := by
      simp only [resetIfFailed]; split <;> rfl
    have hh : (resetIfFailed d0).fileHash = d0.fileHash := by
      simp only [resetIfFailed]; split <;> rfl
    refine ⟨by simp [ingestOne, hf, hid], ?_, ?_⟩
    · intro hfail
      have hreset : resetIfFailed d0 =
          { d0 with status := "pending", errorMessage := none } := by
        simp [resetIfFailed, hfail]
      have := findByHash_updateRow db.rows (hashFn content) d0
        (resetIfFailed d0) hf hid hh
      simp only [ingestOne, hf]
      rw [← hreset]
      exact this
    · intro hok
      have hreset : resetIfFailed d0 = d0 := by
        simp [resetIfFailed, hok]
      have hthis := findByHash_updateRow db.rows (hashFn content) d0
        (resetIfFailed d0) hf hid hh
      rw [hreset] at hthis
      simp only [ingestOne, hf, hreset]
      exact hthis

/-- Witness for ingest_duplicate_same_id: the same two-byte content
uploaded as a.pdf and then b.pdf into an empty table gets id 0 both times,
and resubmitting content whose existing row is failed resets it to
pending with its error cleared. -/
theorem ingest_duplicate_same_id_witness :
    ((ingestOne (fun c => c.length) [1, 2] "b.pdf"
        (ingestOne (fun c => c.length) [1, 2] "a.pdf" ⟨[], 0⟩).1).2 =
      (ingestOne (fun c => c.length) [1, 2] "a.pdf" ⟨[], 0⟩).2) ∧
    findByHash (ingestOne (fun c => c.length) [1, 2] "a.pdf"
        ⟨[⟨5, "x.pdf", 2, "failed", some "boom"⟩], 6⟩).1 2 =
      some ⟨5, "x.pdf", 2, "pending", none⟩ := by
  constructor
  · exact (ingest_duplicate_same_id (fun c => c.length) [1, 2] "a.pdf" "b.pdf"
      ⟨[], 0⟩).1
  · exact ((ingest_duplicate_same_id (fun c => c.length) [1, 2] "a.pdf" "b.pdf"
      ⟨[⟨5, "x.pdf", 2, "failed", some "boom"⟩], 6⟩).2
        ⟨5, "x.pdf", 2, "failed", some "boom"⟩ (by decide)).2.1 (by decide)

/-! ## Audit view caching (api/views/audit.py, AuditView.post lines 53-63
and 81-95)

The view returns 404 for a missing document, 400 for one not completed;
otherwise, when AuditFinding rows exist for the document it answers with
them without constructing an AuditEngine, and only when none exist does it
run detection and persist a row per returned finding (evidence truncated
to 1000 characters).
-/

inductive AuditResp where
  | notFound
  | notReady (status : String)
  | findingsResp (cached : Bool) (fs : List Finding)
deriving DecidableEq, Repr

/-- AuditFinding.objects.create(...): evidence_text is
finding.get('evidence', '')[:1000]. -/
def truncEvidence (f : Finding) : Finding :=
  { f with evidence := f.evidence.take 1000 }

/-- AuditView.post over one document: docStatus is the Document row's
status (none when the row is missing), persisted the AuditFinding rows for
it, and detect the result of audit_engine.audit_contract (an external
rules+LLM computation, passed as data).  Returns the response, the
AuditFinding rows after the request, and whether detection was run. -/
def auditPost (docStatus : Option String) (persisted : List Finding)
    (detect : List Finding) : AuditResp × List Finding × Bool :=
  match docStatus with
  | none => (.notFound, persisted, false)
  | some st =>
    if st ≠ "completed" then (.notReady st, persisted, false)
    else if persisted ≠ [] then (.findingsResp true persisted, persisted, false)
    else
      (.findingsResp false (detect.map truncEvidence),
        persisted ++ detect.map truncEvidence, true)

/-- C10: for a completed document the view runs detection exactly when no
AuditFinding row exists; existing rows are returned as-is without
detection; and a first audit that detects zero findings persists nothing,
so the next audit request runs detection again instead of serving a cached
empty set. -/
theorem audit_cache_iff_persisted (persisted detect detect2 : List Finding) :
    ((auditPost (some "completed") persisted detect).2.2 = true ↔
      persisted = []) ∧
    (persisted ≠ [] →
      auditPost (some "completed") persisted detect =
        (.findingsResp true persisted, persisted, false)) ∧
    (detect = [] →
      (auditPost (some "completed") [] detect).2.1 = [] ∧
      (auditPost (some "completed")
          (auditPost (some "completed") [] detect).2.1 detect2).2.2 = true) := by
  refine ⟨?_, ?_, ?_⟩
  · constructor
    · intro h
      by_cases hp : persisted = []
      · exact hp
      · simp [auditPost, hp] at h
    · intro hp
      simp [auditPost, hp]
  · intro hp
    simp [auditPost, hp]
  · intro hd
    subst hd
    simp [auditPost]

/-- Witness for audit_cache_iff_persisted: one persisted finding is served
cached with no detection; an empty first detection leaves no rows and the
second request detects again. -/
theorem audit_cache_iff_persisted_witness :
    (auditPost (some "completed")
        [⟨"auto_renewal", "high", "t", "d", "e", "r", "rules", none⟩] [] =
      (.findingsResp true
        [⟨"auto_renewal", "high", "t", "d", "e", "r", "rules", none⟩],
        [⟨"auto_renewal", "high", "t", "d", "e", "r", "rules", none⟩], false)) ∧
    ((auditPost (some "completed") [] []).2.1 = [] ∧
      (auditPost (some "completed") (auditPost (some "completed") [] []).2.1
        []).2.2 = true) := by
  constructor
  · exact (audit_cache_iff_persisted
      [⟨"auto_renewal", "high", "t", "d", "e", "r", "rules", none⟩] [] []).2.1
      (by decide)
  · exact (audit_cache_iff_persisted [] [] []).2.2 rfl

end ContractIntel
